import Mathlib

/-!
Verification development for the alethe-proof-checker / carcara sources:
the capture-avoiding substitution engine (`ast/substitution.rs`), the
fixed-point simplification loop (`checker/rules/simplification.rs`), and
the Lower Units proof-compression pass (`checker/compression/mod.rs`).

Terms are hash-consed in the Rust sources: once inserted in the pool,
pointer identity coincides with structural equality.  The embedding
therefore represents a pool term directly by its structure, `add_term`
becomes the identity, and the pointer-keyed hash maps of the sources
become maps keyed by structural equality.  Mutable state (substitution
caches, union-find arrays) is threaded explicitly; Rust recursion whose
termination is not structural is given an explicit fuel parameter, with
`none` marking fuel exhaustion (and, where noted, an out-of-bounds index
or an unreachable arm on which the Rust code would abort).
-/

/-- Sorts of the term language (the payload of `Term::Sort`). -/
inductive SortKind where
  | bool
  | int
  | real
  | atom (name : String)
  | unknown
deriving DecidableEq

/-- Quantifier kinds (`Quantifier::Forall` / `Quantifier::Exists`). -/
inductive Quant where
  | all
  | ex
deriving DecidableEq

mutual
/-- The term data model, mirroring `Term` from the `ast` module: terminal
literals (variables carry their sort, itself a term, as in the Rust AST),
applications, operator applications, the four binder forms, and sorts.
Operators are identified by name. -/
inductive Tm where
  | var (name : String) (sort : Tm)
  | intLit (n : Int)
  | app (f : Tm) (args : TmList)
  | op (o : String) (args : TmList)
  | quant (q : Quant) (bindings : BList) (body : Tm)
  | choice (name : String) (val : Tm) (body : Tm)
  | lett (bindings : BList) (body : Tm)
  | lam (bindings : BList) (body : Tm)
  | sortTm (s : SortKind)
deriving DecidableEq
/-- A list of terms (`Vec<Rc<Term>>`). -/
inductive TmList where
  | nil
  | cons (hd : Tm) (tl : TmList)
deriving DecidableEq
/-- A binding list (`BindingList`, a vector of `SortedVar = (String, Rc<Term>)`). -/
inductive BList where
  | nil
  | cons (name : String) (val : Tm) (tl : BList)
deriving DecidableEq
end

def TmList.toList : TmList → List Tm
  | .nil => []
  | .cons a l => a :: l.toList

def TmList.ofList : List Tm → TmList
  | [] => .nil
  | a :: l => .cons a (TmList.ofList l)

def TmList.length (l : TmList) : Nat := l.toList.length

def BList.toList : BList → List (String × Tm)
  | .nil => []
  | .cons n v l => (n, v) :: l.toList

def BList.ofList : List (String × Tm) → BList
  | [] => .nil
  | (n, v) :: l => .cons n v (BList.ofList l)

/-- Names bound by a binding list. -/
def BList.names (l : BList) : List String := l.toList.map Prod.fst

/-- Modelled from the spec: `TermPool::sort` (the `TermPool` lives in the
`ast` module, which is not among the given sources).  The spec says every
pool-resident term has a computable sort and that sort-checking fails on
ill-sorted terms; ill-sorted or unsupported cases are mapped to the
distinguished `SortKind.unknown`.  A variable's sort is the sort term it
carries; integer literals have sort `Int`; the usual boolean connectives
and comparisons have sort `Bool`; arithmetic operators are given sort
`Int`; a quantified formula has sort `Bool`; a `choice` has the sort of
its bound variable; a `let` has the sort of its body. -/
def sortOf : Tm → SortKind
  | .var _ (.sortTm s) => s
  | .var _ _ => .unknown
  | .intLit _ => .int
  | .app _ _ => .unknown
  | .op o _ =>
      if o ∈ ["not", "and", "or", "=>", "=", "distinct", ">", ">=", "<", "<="] then .bool
      else if o ∈ ["+", "-", "*", "div", "mod"] then .int
      else .unknown
  | .quant _ _ _ => .bool
  | .choice _ (.sortTm s) _ => s
  | .choice _ _ _ => .unknown
  | .lett _ body => sortOf body
  | .lam _ _ => .unknown
  | .sortTm _ => .unknown

mutual
/-- Modelled from the spec: `TermPool::free_vars` (not among the given
sources).  The free-variable names of a term: a variable is free in
itself; binders remove their bound names from the body's free variables;
a `let` additionally contributes the free variables of its bound values. -/
def freeVars : Tm → List String
  | .var n _ => [n]
  | .intLit _ => []
  | .app f args => freeVars f ++ freeVarsList args
  | .op _ args => freeVarsList args
  | .quant _ bs body => (freeVars body).filter (fun n => n ∉ bs.names)
  | .choice n _ body => (freeVars body).filter (fun m => m ≠ n)
  | .lett bs body =>
      freeVarsBindings bs ++ (freeVars body).filter (fun n => n ∉ bs.names)
  | .lam bs body => (freeVars body).filter (fun n => n ∉ bs.names)
  | .sortTm _ => []
def freeVarsList : TmList → List String
  | .nil => []
  | .cons a l => freeVars a ++ freeVarsList l
def freeVarsBindings : BList → List String
  | .nil => []
  | .cons _ v l => freeVars v ++ freeVarsBindings l
end

/-- First-match association-list lookup.  The sources use `AHashMap`
keyed by hash-consed `Rc<Term>` pointers (equivalently, by structural
equality); insertion is modelled by `cons`, so a first-match lookup has
exactly the overwrite semantics of `HashMap::insert`. -/
def alookup {α β : Type} [DecidableEq α] : List (α × β) → α → Option β
  | [], _ => none
  | (a, b) :: rest, k => if a = k then some b else alookup rest k

/-- Membership-preserving insertion for the model of `AHashSet<String>`. -/
def snrInsert (l : List String) (n : String) : List String :=
  if n ∈ l then l else l ++ [n]

/-- Model of `AHashSet::extend`. -/
def snrExtend (l : List String) (ns : List String) : List String :=
  ns.foldl snrInsert l

/-- The substitution error type (`SubstitutionError`): `DifferentSorts` is
its only variant. -/
inductive SubstitutionError where
  | differentSorts (x t : Tm)
deriving DecidableEq

/-- The substitution state (`struct Substitution` in `ast/substitution.rs`):
the term→term map, the `should_be_renamed` working set of names unsafe to
leave bound unchanged, and the term→result memo cache. -/
structure Substitution where
  map : List (Tm × Tm)
  should_be_renamed : List String
  cache : List (Tm × Tm)
deriving DecidableEq

/-- `Substitution::empty`. -/
def Substitution.empty : Substitution := ⟨[], [], []⟩

/-- `Term::as_var`: the name of a plain variable terminal. -/
def Tm.asVar : Tm → Option String
  | .var n _ => some n
  | _ => none

/-- The sort-validation loop at the start of `Substitution::new`: the
first pair whose sides disagree in sort yields `DifferentSorts`. -/
def checkSorts : List (Tm × Tm) → Except SubstitutionError Unit
  | [] => .ok ()
  | (k, v) :: rest =>
      if sortOf k ≠ sortOf v then .error (.differentSorts k v)
      else checkSorts rest

/-- The `should_be_renamed` construction loop of `Substitution::new`:
reflexive pairs are skipped; for every other pair `(x, t)` the free
variables of `t` are added, and the name of `x` when `x` is a plain
variable. -/
def buildRenameSet : List (Tm × Tm) → List String → List String
  | [], acc => acc
  | (x, t) :: rest, acc =>
      if x = t then buildRenameSet rest acc
      else
        let acc1 := snrExtend acc (freeVars t)
        let acc2 :=
          match x.asVar with
          | some n => snrInsert acc1 n
          | none => acc1
        buildRenameSet rest acc2

/-- `Substitution::new`: validate that every pair shares a sort, then
build the `should_be_renamed` set.  The input map is given as an
association list (the Rust input is a hash map, so which offending pair
is reported depends on iteration order; here it is list order). -/
def Substitution.new (m : List (Tm × Tm)) : Except SubstitutionError Substitution := do
  checkSorts m
  .ok ⟨m, buildRenameSet m [], []⟩

/-- `Substitution::insert`: fails with `DifferentSorts` before any
mutation when the sorts disagree; otherwise extends `should_be_renamed`
(unless the pair is reflexive) and the map. -/
def Substitution.insert (s : Substitution) (x t : Tm) : Except SubstitutionError Substitution :=
  if sortOf x ≠ sortOf t then .error (.differentSorts x t)
  else
    let snr :=
      if x ≠ t then
        let a := snrExtend s.should_be_renamed (freeVars t)
        match x.asVar with
        | some n => snrInsert a n
        | none => a
      else s.should_be_renamed
    .ok ⟨(x, t) :: s.map, snr, s.cache⟩

/-- `Substitution::single`. -/
def Substitution.single (x t : Tm) : Except SubstitutionError Substitution :=
  Substitution.empty.insert x t

/-- The name-freshening `while` loop of `rename_binding_list`
(`new_var.push('@')` while the name is in `should_be_renamed` or collides
with a fresh name already chosen for this binding list).  Each iteration
collides with a distinct element of `avoid` (candidate names strictly
grow), so fuel `avoid.length + 1` always reaches a fresh name. -/
def addMarkers (avoid : List String) : Nat → String → String
  | 0, v => v
  | fuel + 1, v => if v ∈ avoid then addMarkers avoid fuel (v ++ "@") else v

/-- The `new_substitution.insert(pool, old, new).unwrap()` call inside
`rename_binding_list`: `old` and `new` carry the same sort term, so the
sort check always passes and the unwrap never panics; the error arm
below is unreachable (`rename_insert_total` below). -/
def insertUnwrap (s : Substitution) (x t : Tm) : Substitution :=
  match s.insert x t with
  | .ok s1 => s1
  | .error _ => s

mutual
/-- `Substitution::apply`, with explicit fuel (`none` = fuel exhausted):
a cache hit returns the memoised result; a direct map hit short-circuits
recursion; otherwise the term is rebuilt structurally (binders go through
`applyToBinder`) and the result is memoised in the cache. -/
def Substitution.apply : Nat → Substitution → Tm → Option (Tm × Substitution)
  | 0, _, _ => none
  | fuel + 1, s, t =>
    match alookup s.cache t with
    | some r => some (r, s)
    | none =>
      match alookup s.map t with
      | some r => some (r, s)
      | none => do
        let (result, s1) ←
          match t with
          | .app f args => do
              let (newArgs, s1) ← Substitution.applyList fuel s args
              let (newF, s2) ← Substitution.apply fuel s1 f
              pure (Tm.app newF newArgs, s2)
          | .op o args => do
              let (newArgs, s1) ← Substitution.applyList fuel s args
              pure (Tm.op o newArgs, s1)
          | .quant q b body => do
              let (newB, newBody, s1) ← Substitution.applyToBinder fuel s b body false
              pure (Tm.quant q newB newBody, s1)
          | .choice n v body => do
              let (newB, newBody, s1) ←
                Substitution.applyToBinder fuel s (.cons n v .nil) body false
              match newB with
              | .cons n1 v1 .nil => pure (Tm.choice n1 v1 newBody, s1)
              | _ => none
          | .lett b body => do
              let (newB, newBody, s1) ← Substitution.applyToBinder fuel s b body true
              pure (Tm.lett newB newBody, s1)
          | .lam b body => do
              let (newB, newBody, s1) ← Substitution.applyToBinder fuel s b body true
              pure (Tm.lam newB newBody, s1)
          | .var _ _ => pure (t, s)
          | .intLit _ => pure (t, s)
          | .sortTm _ => pure (t, s)
        some (result, ⟨s1.map, s1.should_be_renamed, (t, result) :: s1.cache⟩)
/-- The `apply_to_sequence!` macro: apply the substitution to each element
of a term list in order, threading the cache. -/
def Substitution.applyList : Nat → Substitution → TmList → Option (TmList × Substitution)
  | _, s, .nil => some (.nil, s)
  | 0, _, .cons _ _ => none
  | fuel + 1, s, .cons a l => do
      let (a1, s1) ← Substitution.apply fuel s a
      let (l1, s2) ← Substitution.applyList fuel s1 l
      pure (.cons a1 l1, s2)
/-- `Substitution::apply_to_binder`: first the local renaming pass over
the binding list; if no renaming was required, apply the substitution
directly to the body, otherwise first apply the local renaming
substitution to the body and then the outer substitution to the result. -/
def Substitution.applyToBinder :
    Nat → Substitution → BList → Tm → Bool → Option (BList × Tm × Substitution)
  | 0, _, _, _, _ => none
  | fuel + 1, s, bindingList, inner, isValueList => do
      let (newBindings, ren) ←
        Substitution.renameBindingList fuel s bindingList isValueList Substitution.empty []
      if ren.map.isEmpty then do
        let (newTerm, s1) ← Substitution.apply fuel s inner
        pure (newBindings, newTerm, s1)
      else do
        let (renamed, _) ← Substitution.apply fuel ren inner
        let (newTerm, s1) ← Substitution.apply fuel s renamed
        pure (newBindings, newTerm, s1)
/-- `Substitution::rename_binding_list`, walking the binding list left to
right: for a value list the declared sort is recomputed from the value,
for a sort list it is the stored value; the bound name is renamed when it
is in `should_be_renamed` or collides with a fresh name already chosen in
this list; a renaming is recorded in the local substitution, and values
of value lists are rewritten by the partially-built local substitution. -/
def Substitution.renameBindingList :
    Nat → Substitution → BList → Bool → Substitution → List String →
    Option (BList × Substitution)
  | _, _, .nil, _, ns, _ => some (.nil, ns)
  | 0, _, .cons _ _ _, _, _, _ => none
  | fuel + 1, s, .cons var value rest, isValueList, ns, newVars => do
      let sort := if isValueList then Tm.sortTm (sortOf value) else value
      let avoid := s.should_be_renamed ++ newVars
      let newVar := addMarkers avoid (avoid.length + 1) var
      let changed := var ∈ avoid
      let (ns1, newVars1) :=
        if changed then
          (insertUnwrap ns (Tm.var var sort) (Tm.var newVar sort), newVars ++ [newVar])
        else (ns, newVars)
      let (newValue, ns2) ←
        if isValueList then Substitution.apply fuel ns1 value
        else pure (value, ns1)
      let (restOut, ns3) ←
        Substitution.renameBindingList fuel s rest isValueList ns2 newVars1
      pure (BList.cons newVar newValue restOut, ns3)
end

/-- Outcome of `generic_simplify_rule` (`checker/rules/simplification.rs`):
`ok` is `Some(())`, `noApply` is the recoverable `None` ("rule does not
apply"), and `cyclePanic` is the hard abort
(`Cycle detected in simplification rule`). -/
inductive SimpOutcome where
  | ok
  | noApply
  | cyclePanic
deriving DecidableEq

/-- The fixed-point rewrite loop of `generic_simplify_rule`: at the top of
each iteration the current term is added to the `seen` set, aborting if it
was already there; then one rewrite step runs: reaching the goal returns
`ok`, a failing rewrite returns the recoverable `noApply`, and otherwise
the loop continues on the rewritten term. -/
def simpLoop (f : Tm → Option Tm) (goal : Tm) : List Tm → Tm → Nat → Option SimpOutcome
  | _, _, 0 => none
  | seen, current, fuel + 1 =>
      if current ∈ seen then some .cyclePanic
      else
        match f current with
        | some next =>
            if next = goal then some .ok
            else simpLoop f goal (current :: seen) next fuel
        | none => some .noApply

/-- `generic_simplify_rule`: a conclusion that is not a single equality
returns the recoverable failure; otherwise the fixed-point rewrite loop
runs from the left-hand side towards the right-hand side. -/
def generic_simplify_rule (fuel : Nat) (conclusion : List Tm)
    (simplify_function : Tm → Option Tm) : Option SimpOutcome :=
  match conclusion with
  | [c] =>
      match c with
      | .op "=" (.cons phi (.cons psi .nil)) => simpLoop simplify_function psi [] phi fuel
      | _ => some .noApply
  | _ => some .noApply

/-- Modelled from the spec: a proof step (`ProofStep` in the `ast` module,
which is not among the given sources): identifier, clause (ordered literal
terms), rule name, premises as (depth, index) references into the command
list, arguments, and discharge set. -/
structure ProofStep where
  id : String
  clause : List Tm
  rule : String
  premises : List (Nat × Nat)
  args : List Tm
  discharge : List Tm

/-- Modelled from the spec: a proof command (`ProofCommand`): an
assumption, a step, or a nested subproof. -/
inductive ProofCommand where
  | assume (id : String) (term : Tm)
  | step (s : ProofStep)
  | subproof (commands : List ProofCommand)

/-- Modelled from the spec: a proof (`Proof`): externally assumed premises
plus a topologically ordered command sequence whose last command is the
root. -/
structure Proof where
  premises : List Tm
  commands : List ProofCommand

/-- The clause-shape test under which `collect_units` calls `visit`: a
`Step` whose clause has exactly one literal, or an `Assume` whose term is
a terminal, or an operator applied to exactly one argument. -/
def unitShaped : ProofCommand → Bool
  | .step s => s.clause.length = 1
  | .assume _ t =>
      match t with
      | .var _ _ => true
      | .intLit _ => true
      | .op _ args => args.length = 1
      | _ => false
  | .subproof _ => false

/-- The `visit` helper of `collect_units`: an unvisited node is marked 0;
a node marked 0 is pushed onto the unit-node list and marked 1; later
visits change nothing. -/
def visit (idx : Nat) (visited : List (Nat × Nat)) (unitNodes : List Nat) :
    List (Nat × Nat) × List Nat :=
  match alookup visited idx with
  | none => ((idx, 0) :: visited, unitNodes)
  | some 0 => ((idx, 1) :: visited, unitNodes ++ [idx])
  | some _ => (visited, unitNodes)

/-- The traversal loop of `collect_units`: pop the queue's front; a
`Step` pushes its premises one by one onto the FRONT of the queue (so
they are explored most-recently-enqueued first, i.e. depth-first), then
the popped node is visited when its clause is unit-shaped.  Out-of-range
command indices (a Rust indexing abort) and fuel exhaustion give `none`. -/
def collectUnitsLoop (cmds : List ProofCommand) :
    List Nat → List (Nat × Nat) → List Nat → Nat → Option (List Nat)
  | _, _, _, 0 => none
  | [], _, unitNodes, _ + 1 => some unitNodes
  | curr :: rest, visited, unitNodes, fuel + 1 =>
      match cmds.get? curr with
      | none => none
      | some cmd =>
          let queue1 :=
            match cmd with
            | .step s => (s.premises.map Prod.snd).reverse ++ rest
            | _ => rest
          let (v1, u1) :=
            if unitShaped cmd then visit curr visited unitNodes
            else (visited, unitNodes)
          collectUnitsLoop cmds queue1 v1 u1 fuel

/-- `collect_units`: run the traversal loop from the root (the last
command). -/
def collect_units (proof : Proof) (fuel : Nat) : Option (List Nat) :=
  collectUnitsLoop proof.commands [proof.commands.length - 1] [] [] fuel

/-- The traversal loop of `collect_units` instrumented with a ghost trace
(the list of node indices processed so far, most recent first); this is
not in the source — `collectUnitsLoop_eq_traced` proves it projects to
`collectUnitsLoop`. -/
def collectUnitsLoopTraced (cmds : List ProofCommand) :
    List Nat → List (Nat × Nat) → List Nat → List Nat → Nat →
    Option (List Nat × List Nat)
  | _, _, _, _, 0 => none
  | [], _, unitNodes, trace, _ + 1 => some (unitNodes, trace)
  | curr :: rest, visited, unitNodes, trace, fuel + 1 =>
      match cmds.get? curr with
      | none => none
      | some cmd =>
          let queue1 :=
            match cmd with
            | .step s => (s.premises.map Prod.snd).reverse ++ rest
            | _ => rest
          let (v1, u1) :=
            if unitShaped cmd then visit curr visited unitNodes
            else (visited, unitNodes)
          collectUnitsLoopTraced cmds queue1 v1 u1 (curr :: trace) fuel

/-- The unit-discovery traversal as the spec words it, breadth-first:
identical to `collectUnitsLoop` except that a step's premises are pushed
onto the BACK of the queue.  This definition follows the spec's words and
exists to be compared against `collect_units`. -/
def collectUnitsBfsLoop (cmds : List ProofCommand) :
    List Nat → List (Nat × Nat) → List Nat → Nat → Option (List Nat)
  | _, _, _, 0 => none
  | [], _, unitNodes, _ + 1 => some unitNodes
  | curr :: rest, visited, unitNodes, fuel + 1 =>
      match cmds.get? curr with
      | none => none
      | some cmd =>
          let queue1 :=
            match cmd with
            | .step s => rest ++ s.premises.map Prod.snd
            | _ => rest
          let (v1, u1) :=
            if unitShaped cmd then visit curr visited unitNodes
            else (visited, unitNodes)
          collectUnitsBfsLoop cmds queue1 v1 u1 fuel

/-- Breadth-first unit discovery following the spec's words, from the
root. -/
def collectUnitsBreadthFirst (proof : Proof) (fuel : Nat) : Option (List Nat) :=
  collectUnitsBfsLoop proof.commands [proof.commands.length - 1] [] [] fuel

/-- The union-find `find` with path compression (`fn find` in
`compression/mod.rs`): follow the redirection array `actual` until a
fixed point, rewriting every slot on the path to the representative.
Out-of-range indices (a Rust indexing abort) and fuel exhaustion give
`none`. -/
def find : Nat → Nat → List Nat → Option (Nat × List Nat)
  | 0, _, _ => none
  | fuel + 1, i, actual =>
      match actual.get? i with
      | none => none
      | some ai =>
          if ai = i then some (i, actual)
          else
            match find fuel ai actual with
            | none => none
            | some (r, a1) => some (r, (a1.set i r))

/-- The redirection loop at the end of `fix_proof`'s `Step` arm (run when
`dnm_parents` is non-empty): for EVERY non-dnm direct premise, in premise
order, `actual[curr]` is overwritten with `find(premise)`, so the slot
ends at the path-compressed representative of the last non-dnm premise. -/
def redirectLoop (fuel : Nat) (curr : Nat) :
    List (Nat × Nat) → List Bool → List Nat → Option (List Nat)
  | [], _, actual => some actual
  | (_, p) :: rest, dnm, actual =>
      match dnm.get? p with
      | none => none
      | some true => redirectLoop fuel curr rest dnm actual
      | some false =>
          match find fuel p actual with
          | none => none
          | some (r, a1) => redirectLoop fuel curr rest dnm (a1.set curr r)

/-- The `dnm_parents` collection loop of `fix_proof`: the dnm flag of
each direct premise, `none` when an index is out of range. -/
def dnmFlags (dnm : List Bool) : List (Nat × Nat) → Option (List Bool)
  | [] => some []
  | (_, p) :: rest => do
      let b ← dnm.get? p
      let bs ← dnmFlags dnm rest
      pure (b :: bs)

mutual
/-- `fix_proof`: a post-order walk over the premise DAG.  A dnm node
returns immediately; a `Step` first processes its premises recursively,
then, when at least one direct premise is dnm, runs the redirection
loop; other commands do nothing. -/
def fix_proof : Nat → Nat → Proof → List Bool → List Nat → Option (List Nat)
  | 0, _, _, _, _ => none
  | fuel + 1, curr, proof, dnm, actual =>
      match dnm.get? curr with
      | none => none
      | some true => some actual
      | some false =>
          match proof.commands.get? curr with
          | none => none
          | some (.step s) => do
              let a1 ← fixPremises fuel s.premises proof dnm actual
              let flags ← dnmFlags dnm s.premises
              if flags.any id then redirectLoop fuel curr s.premises dnm a1
              else pure a1
          | some _ => some actual
/-- The premise-recursion loop at the top of `fix_proof`'s `Step` arm. -/
def fixPremises : Nat → List (Nat × Nat) → Proof → List Bool → List Nat → Option (List Nat)
  | 0, _, _, _, _ => none
  | _ + 1, [], _, _, actual => some actual
  | fuel + 1, (_, p) :: rest, proof, dnm, actual => do
      let a1 ← fix_proof fuel p proof dnm actual
      fixPremises fuel rest proof dnm a1
end

/-- `Rc::remove_all_negations`: strip the leading chain of negations,
returning the negation depth and the innermost term. -/
def removeAllNegations : Tm → Nat × Tm
  | .op "not" (.cons t .nil) =>
      let (n, inner) := removeAllNegations t
      (n + 1, inner)
  | t => (0, t)

/-- The shape matched by `match_term!((not true) = t)` in the early abort
of `get_pivots` (boolean constants are variable terminals in the pool). -/
def isNotTrue : Tm → Bool
  | .op "not" (.cons (.var "true" _) .nil) => true
  | _ => false

/-- The `try_eliminate` closure of `get_pivots`: an occupied entry for
the candidate key is overwritten with `true` and elimination succeeds; a
vacant entry is left vacant and elimination fails.  Candidate maps are
association lists in insertion order (the Rust `AHashMap` iterates in
unspecified hash order). -/
def tryEliminate (pivots : List ((Int × Tm) × Bool)) (key : Int × Tm) :
    Bool × List ((Int × Tm) × Bool) :=
  if pivots.any (fun e => e.1 = key) then
    (true, pivots.map (fun e => if e.1 = key then (key, true) else e))
  else (false, pivots)

/-- The `pivots.entry((n, inner)).or_insert(false)` fall-through of
`get_pivots`. -/
def orInsertFalse (pivots : List ((Int × Tm) × Bool)) (key : Int × Tm) :
    List ((Int × Tm) × Bool) :=
  if pivots.any (fun e => e.1 = key) then pivots else pivots ++ [(key, false)]

/-- State threaded through `get_pivots`' premise loops: the working
output clause and the pivot-candidate map. -/
structure PivotState where
  workingClause : List (Int × Tm)
  pivots : List ((Int × Tm) × Bool)

/-- The per-literal body of `get_pivots`' inner loop: a literal required
by the conclusion and not yet placed goes to the working clause;
otherwise, if this premise has not yet eliminated its pivot, elimination
of the literal one step below or above is attempted; failing that, the
literal goes to the working clause when the conclusion requires it, or is
recorded as an unmarked pivot candidate. -/
def processLiteral (conclusionSet : List (Int × Tm)) (st : PivotState) (ecp : Bool)
    (term : Tm) : PivotState × Bool :=
  let p := removeAllNegations term
  let n : Int := p.1
  let inner := p.2
  let below := (n - 1, inner)
  let above := (n + 1, inner)
  if (n, inner) ∈ conclusionSet ∧ (n, inner) ∉ st.workingClause then
    ({ st with workingClause := (n, inner) :: st.workingClause }, ecp)
  else if ecp then
    if (n, inner) ∈ conclusionSet then
      ({ st with workingClause := (n, inner) :: st.workingClause }, ecp)
    else ({ st with pivots := orInsertFalse st.pivots (n, inner) }, ecp)
  else
    let rb := tryEliminate st.pivots below
    if rb.1 then ({ st with pivots := rb.2 }, true)
    else
      let ra := tryEliminate rb.2 above
      if ra.1 then ({ st with pivots := ra.2 }, true)
      else if (n, inner) ∈ conclusionSet then
        ({ st with workingClause := (n, inner) :: st.workingClause }, ecp)
      else ({ st with pivots := orInsertFalse st.pivots (n, inner) }, ecp)

/-- One premise of `get_pivots`' outer loop: fold the literal body over
the premise clause, with the eliminated-clause-pivot flag reset to
`false`. -/
def processPremise (conclusionSet : List (Int × Tm)) (st : PivotState)
    (clause : List Tm) : PivotState :=
  (clause.foldl
    (fun acc term => processLiteral conclusionSet acc.1 acc.2 term)
    (st, false)).1

/-- The candidate-construction phase of `get_pivots`: normalise the
conclusion, then fold over all premises starting from empty working
clause and empty candidate map, returning the candidate map. -/
def buildPivots (conclusion : List Tm) (premises : List (List Tm)) :
    List ((Int × Tm) × Bool) :=
  let conclusionSet := conclusion.map
    (fun t => (((removeAllNegations t).1 : Int), (removeAllNegations t).2))
  (premises.foldl (fun st clause => processPremise conclusionSet st clause)
    ⟨[], []⟩).pivots

/-- The final loop of `get_pivots`: the first candidate marked
eliminated-in-both-premises is returned; if none is marked the Rust code
panics (`Cannot determine the pivots`), modelled by `none`. -/
def selectPivot : List ((Int × Tm) × Bool) → Option (Int × Tm)
  | [] => none
  | (k, true) :: _ => some k
  | (_, false) :: rest => selectPivot rest

/-- The guard of the early abort at the top of `get_pivots`: an empty
conclusion together with a single premise whose clause is exactly
`(not true)`. -/
def earlyNotTruePanic (conclusion : List Tm) (premises : List (List Tm)) : Bool :=
  conclusion.isEmpty && premises.length == 1 &&
    (match premises.head? with
     | some [t] => isNotTrue t
     | _ => false)

/-- The function `get_pivots`: the early abort (empty conclusion and a
single `¬true` premise), then candidate construction and selection; both
panic paths are `none`.  The Rust result casts the depth `as u32`; marked
keys always carry a non-negative depth, and the cast is modelled by
`Int.toNat`. -/
def get_pivots (conclusion : List Tm) (premises : List (List Tm)) : Option (Nat × Tm) :=
  if earlyNotTruePanic conclusion premises then none
  else
    match selectPivot (buildPivots conclusion premises) with
    | some (n, t) => some (n.toNat, t)
    | none => none

mutual
/-- A fuel budget sufficient for `Substitution.apply` on identity-like
substitutions: a generous structural measure dominating the depth of the
call tree of the apply family. -/
def tmFuel : Tm → Nat
  | .var _ _ => 1
  | .intLit _ => 1
  | .sortTm _ => 1
  | .app f args => 1 + tmFuel f + tmListFuel args
  | .op _ args => 1 + tmListFuel args
  | .quant _ b body => 2 + bFuel b + tmFuel body
  | .choice _ v body => 4 + tmFuel v + tmFuel body
  | .lett b body => 2 + bFuel b + tmFuel body
  | .lam b body => 2 + bFuel b + tmFuel body
/-- Fuel measure for term lists. -/
def tmListFuel : TmList → Nat
  | .nil => 1
  | .cons a l => 1 + tmFuel a + tmListFuel l
/-- Fuel measure for binding lists. -/
def bFuel : BList → Nat
  | .nil => 1
  | .cons _ v l => 1 + tmFuel v + bFuel l
end

/-- A substitution state that can only behave as the identity: every map
entry is reflexive, `should_be_renamed` is empty, and every cache entry
is reflexive. -/
def IdLike (s : Substitution) : Prop :=
  (∀ p ∈ s.map, p.1 = p.2) ∧ s.should_be_renamed = [] ∧ ∀ p ∈ s.cache, p.1 = p.2

/-- The apply family never touches the map or the rename set. -/
def MapFrame (s s1 : Substitution) : Prop :=
  s1.map = s.map ∧ s1.should_be_renamed = s.should_be_renamed

/-- A redirection array in which every slot points at an index no larger
than its own — the invariant `compress_proof` establishes (the array
starts as the identity and is only ever redirected to earlier premises). -/
def Desc (a : List Nat) : Prop :=
  ∀ i v, a.get? i = some v → v ≤ i

/-- The first premise in premise order whose dnm flag is `false` (the
premise the claim says the slot should be redirected to). -/
def firstNonDnm (premises : List (Nat × Nat)) (dnm : List Bool) : Option Nat :=
  match premises with
  | [] => none
  | (_, p) :: rest => if dnm.get? p = some false then some p else firstNonDnm rest dnm

/-- The last premise in premise order whose dnm flag is `false` (the
premise whose representative ends up in the redirected slot). -/
def lastNonDnm (premises : List (Nat × Nat)) (dnm : List Bool) : Option Nat :=
  match premises with
  | [] => none
  | (_, p) :: rest =>
      match lastNonDnm rest dnm with
      | some q => some q
      | none => if dnm.get? p = some false then some p else none

/-- The node at index `n` exists and `collect_units` considers its clause
unit-shaped. -/
def unitShapedAt (cmds : List ProofCommand) (n : Nat) : Prop :=
  ∃ cmd, cmds.get? n = some cmd ∧ unitShaped cmd = true

/-- The loop invariant of `collect_units`: the unit list has no
duplicates; a unit-shaped node is unvisited, visited once (mark 0), or
visited at least twice (mark 1), in step with its multiplicity in the
processing trace; nodes that are not unit-shaped are never marked; and
the unit list holds exactly the unit-shaped nodes processed at least
twice. -/
def CUInv (cmds : List ProofCommand) (visited : List (Nat × Nat))
    (units trace : List Nat) : Prop :=
  units.Nodup ∧
  (∀ n, unitShapedAt cmds n →
    (alookup visited n = none ∧ trace.count n = 0) ∨
    (alookup visited n = some 0 ∧ trace.count n = 1) ∨
    (alookup visited n = some 1 ∧ 2 ≤ trace.count n)) ∧
  (∀ n, ¬ unitShapedAt cmds n → alookup visited n = none) ∧
  (∀ n, n ∈ units ↔ unitShapedAt cmds n ∧ 2 ≤ trace.count n)

/-! Concrete instances used by the claim theorems. -/

def intSort : Tm := Tm.sortTm .int
def boolSort : Tm := Tm.sortTm .bool
def xInt : Tm := Tm.var "x" intSort
def yInt : Tm := Tm.var "y" intSort
def pB : Tm := Tm.var "p" boolSort
def qB : Tm := Tm.var "q" boolSort
def rB : Tm := Tm.var "r" boolSort
def sB : Tm := Tm.var "s" boolSort
def notTm (a : Tm) : Tm := Tm.op "not" (.cons a .nil)

/-- The substitution produced by `Substitution::new` from the single
mapping x ↦ y (both integer variables). -/
def subXtoY : Substitution := ⟨[(xInt, yInt)], ["y", "x"], []⟩

/-- The term `(forall ((y Int)) (> y x))`. -/
def c3Input1 : Tm :=
  Tm.quant .all (.cons "y" intSort .nil)
    (Tm.op ">" (.cons (Tm.var "y" intSort) (.cons xInt .nil)))

/-- The term `(forall ((y@ Int)) (> y@ y))`. -/
def c3Expected1 : Tm :=
  Tm.quant .all (.cons "y@" intSort .nil)
    (Tm.op ">" (.cons (Tm.var "y@" intSort) (.cons yInt .nil)))

/-- The term `(forall ((x Int) (x@ Int) (x@@ Int)) (= x x@ x@@))`. -/
def c3Input2 : Tm :=
  Tm.quant .all (.cons "x" intSort (.cons "x@" intSort (.cons "x@@" intSort .nil)))
    (Tm.op "=" (.cons xInt (.cons (Tm.var "x@" intSort) (.cons (Tm.var "x@@" intSort) .nil))))

/-- The term `(forall ((x@ Int) (x@@ Int) (x@@@ Int)) (= x@ x@@ x@@@))`. -/
def c3Expected2 : Tm :=
  Tm.quant .all (.cons "x@" intSort (.cons "x@@" intSort (.cons "x@@@" intSort .nil)))
    (Tm.op "="
      (.cons (Tm.var "x@" intSort)
        (.cons (Tm.var "x@@" intSort) (.cons (Tm.var "x@@@" intSort) .nil))))

/-- The term `(+ x 1)`, used to exercise the memo cache. -/
def c10T : Tm := Tm.op "+" (.cons xInt (.cons (Tm.intLit 1) .nil))

/-- The term `(+ y 1)`, the image of `c10T` under x ↦ y. -/
def c10R : Tm := Tm.op "+" (.cons yInt (.cons (Tm.intLit 1) .nil))

/-- The state of `subXtoY` after applying it to `c10T`: only the cache
has grown. -/
def c10S1 : Substitution :=
  ⟨[(xInt, yInt)], ["y", "x"], [(c10T, c10R), (Tm.intLit 1, Tm.intLit 1)]⟩

/-- The state of `c10S1` after `insert(x, 2)`: the map has a new entry,
the rename set is unchanged (`2` has no free variables and `x` was
already present), and the cache is untouched — it still stores the image
of `c10T` computed under x ↦ y. -/
def c10S2 : Substitution :=
  ⟨[(xInt, Tm.intLit 2), (xInt, yInt)], ["y", "x"],
    [(c10T, c10R), (Tm.intLit 1, Tm.intLit 1)]⟩

/-- A proof-step command with the given clause and premises. -/
def mkStep (cl : List Tm) (prems : List (Nat × Nat)) : ProofCommand :=
  ProofCommand.step ⟨"t", cl, "resolution", prems, [], []⟩

/-- A proof in which both unit assumptions 0 and 1 are consumed by the
two binary steps 2 and 3, which the root 4 consumes: every unit node is
reached along two premise paths. -/
def exProofC5 : Proof :=
  ⟨[], [ProofCommand.assume "h1" pB,
        ProofCommand.assume "h2" qB,
        mkStep [rB, sB] [(0, 0), (0, 1)],
        mkStep [rB, sB] [(0, 0), (0, 1)],
        mkStep [rB] [(0, 2), (0, 3)]]⟩

/-- A proof whose root step 3 has premises `[1, 0, 2]` with 0 marked
do-not-merge: premises 1 and 2 are both non-dnm, in different union-find
classes, so the first and last non-dnm premises have different
representatives. -/
def exProofC4 : Proof :=
  ⟨[], [ProofCommand.assume "h1" pB,
        mkStep [qB, rB] [(0, 0)],
        mkStep [qB, sB] [(0, 0)],
        mkStep [qB] [(0, 1), (0, 0), (0, 2)]]⟩

/-- The dnm marking of `exProofC4`: node 0 is the shared unit. -/
def dnmC4 : List Bool := [true, false, false, false]

/-- A term exercising every binder-relevant path of `apply`: a `let`
whose body is a quantifier. -/
def letTerm : Tm :=
  Tm.lett (.cons "z" (Tm.intLit 3) .nil)
    (Tm.quant .all (.cons "w" intSort .nil)
      (Tm.op "=" (.cons (Tm.var "w" intSort) (.cons (Tm.var "z" intSort) .nil))))

/-- Decidable equality for `Except` results, so that concrete runs of the
fallible constructors can be evaluated. -/
instance exceptDecEq {e a : Type} [DecidableEq e] [DecidableEq a] :
    DecidableEq (Except e a) := fun x y =>
  match x, y with
  | .ok u, .ok v =>
      if h : u = v then .isTrue (by rw [h])
      else .isFalse (by intro hh; exact h (Except.ok.inj hh))
  | .error u, .error v =>
      if h : u = v then .isTrue (by rw [h])
      else .isFalse (by intro hh; exact h (Except.error.inj hh))
  | .ok _, .error _ => .isFalse (by intro hh; exact Except.noConfusion hh)
  | .error _, .ok _ => .isFalse (by intro hh; exact Except.noConfusion hh)

/-! Helper lemmas shared by the claim theorems. -/

theorem alookup_mem {α β : Type} [DecidableEq α] :
    ∀ (m : List (α × β)) (k : α) (v : β), alookup m k = some v → (k, v) ∈ m := by
  intro m
  induction m with
  | nil => intro k v h; simp [alookup] at h
  | cons p rest ih =>
      intro k v h
      obtain ⟨a, b⟩ := p
      by_cases hk : a = k
      · subst hk
        simp [alookup] at h
        simp [h]
      · simp [alookup, hk] at h
        exact List.mem_cons_of_mem _ (ih k v h)

theorem alookup_refl {m : List (Tm × Tm)} (hm : ∀ p ∈ m, p.1 = p.2) {k v : Tm}
    (h : alookup m k = some v) : v = k := by
  have := hm _ (alookup_mem m k v h)
  simpa using this.symm

/-- C9: in `generic_simplify_rule`, feeding an already-visited term back
into the fixed-point loop (without having reached the goal) aborts with
the unrecoverable cycle panic; when instead the rewrite function fails to
apply before reaching the goal, the loop returns the recoverable
"rule does not apply" result; and on a single-equality conclusion the
rule is exactly this loop from the left-hand side towards the right-hand
side. -/
theorem c9_cycle_abort_vs_recoverable :
    (∀ (f : Tm → Option Tm) (goal : Tm) (seen : List Tm) (cur next : Tm) (fuel : Nat),
        cur ∉ seen → f cur = some next → next ≠ goal → next ∈ cur :: seen →
        simpLoop f goal seen cur (fuel + 2) = some .cyclePanic) ∧
    (∀ (f : Tm → Option Tm) (goal : Tm) (seen : List Tm) (cur : Tm) (fuel : Nat),
        cur ∉ seen → f cur = none →
        simpLoop f goal seen cur (fuel + 1) = some .noApply) ∧
    (∀ (fuel : Nat) (phi psi : Tm) (f : Tm → Option Tm),
        generic_simplify_rule fuel [Tm.op "=" (.cons phi (.cons psi .nil))] f =
          simpLoop f psi [] phi fuel) := by
  refine ⟨?_, ?_, ?_⟩
  · intro f goal seen cur next fuel h1 h2 h3 h4
    simp only [simpLoop, if_neg h1, h2, if_neg h3, if_pos h4]
  · intro f goal seen cur fuel h1 h2
    simp only [simpLoop, if_neg h1, h2]
  · intro fuel phi psi f
    rfl

/-- Witness for C9 at concrete inputs: a rewrite that reproduces its
input panics, and a rewrite that fails is recoverable. -/
theorem c9_cycle_abort_vs_recoverable_witness :
    simpLoop (fun _ => some qB) rB [] qB 3 = some .cyclePanic ∧
    simpLoop (fun _ => none) rB [] qB 3 = some .noApply :=
  ⟨c9_cycle_abort_vs_recoverable.1 (fun _ => some qB) rB [] qB qB 1 (by simp) rfl
      (by decide) (by simp),
    c9_cycle_abort_vs_recoverable.2.1 (fun _ => none) rB [] qB 2 (by simp) rfl⟩

theorem checkSorts_error :
    ∀ m : List (Tm × Tm), (∃ p ∈ m, sortOf p.1 ≠ sortOf p.2) →
      ∃ a b, checkSorts m = .error (.differentSorts a b) ∧ sortOf a ≠ sortOf b := by
  intro m
  induction m with
  | nil => rintro ⟨p, hp, _⟩; simp at hp
  | cons q rest ih =>
      rintro ⟨p, hp, hps⟩
      obtain ⟨k, v⟩ := q
      by_cases hk : sortOf k ≠ sortOf v
      · exact ⟨k, v, by simp [checkSorts, if_pos hk], hk⟩
      · have hrest : p ∈ rest := by
          rcases List.mem_cons.mp hp with h | h
          · exfalso; subst h; exact hk (by simpa using hps)
          · exact h
        obtain ⟨a, b, hab, habs⟩ := ih ⟨p, hrest, hps⟩
        refine ⟨a, b, ?_, habs⟩
        simpa [checkSorts, hk] using hab

/-- C6: a pair whose sorts differ makes `Substitution::insert` fail with
the `DifferentSorts` error (functionally, the erroring call returns no
new state, so neither the map nor `should_be_renamed` gains an entry),
and makes `Substitution::new` fail with a `DifferentSorts` error for some
offending pair; and the insertion performed inside `apply`'s renaming
pass relates two variables carrying the same sort term, so it can never
produce the error — `DifferentSorts` arises only at
construction/insertion time, never during `apply`. -/
theorem c6_different_sorts_only_at_construction :
    (∀ (s : Substitution) (x t : Tm), sortOf x ≠ sortOf t →
        Substitution.insert s x t = .error (.differentSorts x t)) ∧
    (∀ m : List (Tm × Tm), (∃ p ∈ m, sortOf p.1 ≠ sortOf p.2) →
        ∃ a b, Substitution.new m = .error (.differentSorts a b) ∧ sortOf a ≠ sortOf b) ∧
    (∀ (ns : Substitution) (a b : String) (srt : Tm) (e : SubstitutionError),
        Substitution.insert ns (Tm.var a srt) (Tm.var b srt) ≠ .error e) := by
  refine ⟨?_, ?_, ?_⟩
  · intro s x t h
    simp [Substitution.insert, if_pos h]
  · intro m hm
    obtain ⟨a, b, hab, habs⟩ := checkSorts_error m hm
    refine ⟨a, b, ?_, habs⟩
    simp [Substitution.new, hab, Bind.bind, Except.bind]
  · intro ns a b srt e
    have hsorts : sortOf (Tm.var a srt) = sortOf (Tm.var b srt) := by
      cases srt <;> rfl
    simp [Substitution.insert, hsorts]

/-- Witness for C6 at concrete inputs: inserting the boolean `p` for the
integer `x` fails with `DifferentSorts`, `new` on such a map fails, and
the renaming-pass insertion of same-sorted variables never errors. -/
theorem c6_different_sorts_only_at_construction_witness :
    Substitution.insert Substitution.empty xInt pB = .error (.differentSorts xInt pB) ∧
    (∃ a b, Substitution.new [(xInt, pB)] = .error (.differentSorts a b) ∧
      sortOf a ≠ sortOf b) ∧
    Substitution.insert Substitution.empty (Tm.var "u" intSort) (Tm.var "w" intSort) ≠
      .error (.differentSorts (Tm.var "u" intSort) (Tm.var "w" intSort)) :=
  ⟨c6_different_sorts_only_at_construction.1 Substitution.empty xInt pB (by decide),
    c6_different_sorts_only_at_construction.2.1 [(xInt, pB)]
      ⟨(xInt, pB), by simp, by decide⟩,
    c6_different_sorts_only_at_construction.2.2 Substitution.empty "u" "w" intSort _⟩

/-- C10: after an `apply` whose result for `t` is stored in the memo
cache, a subsequent `insert(x, u)` extends only the map (and possibly the
rename set) and leaves the cache untouched, so a later `apply` on `t`
immediately returns the cached result computed under the earlier mapping
— even when `x` occurs free in `t`. -/
theorem c10_insert_leaves_stale_cache (s : Substitution) (t : Tm) (fuel : Nat) (r : Tm)
    (s1 : Substitution) (x u : Tm) (s2 : Substitution)
    (_happly : Substitution.apply fuel s t = some (r, s1))
    (hcached : alookup s1.cache t = some r)
    (hins : Substitution.insert s1 x u = .ok s2) :
    s2.cache = s1.cache ∧ s2.map = (x, u) :: s1.map ∧
    ∀ g : Nat, Substitution.apply (g + 1) s2 t = some (r, s2) := by
  unfold Substitution.insert at hins
  split at hins
  · exact absurd hins (by simp)
  · have hs2 : s2.cache = s1.cache ∧ s2.map = (x, u) :: s1.map := by
      cases hins; exact ⟨rfl, rfl⟩
    refine ⟨hs2.1, hs2.2, ?_⟩
    intro g
    have hc : alookup s2.cache t = some r := hs2.1 ▸ hcached
    simp only [Substitution.apply, hc]

/-- Witness for C10 at concrete inputs: apply x ↦ y to `(+ x 1)` (caching
the image `(+ y 1)`), then insert x ↦ 2; the cache is unchanged and a
second apply still returns `(+ y 1)`, not `(+ 2 1)`. -/
theorem c10_insert_leaves_stale_cache_witness :
    c10S2.cache = c10S1.cache ∧ c10S2.map = (xInt, Tm.intLit 2) :: c10S1.map ∧
    ∀ g : Nat, Substitution.apply (g + 1) c10S2 c10T = some (c10R, c10S2) :=
  c10_insert_leaves_stale_cache subXtoY c10T 20 c10R c10S1 xInt (Tm.intLit 2) c10S2
    (by decide) (by decide) (by decide)

/-- C3: applying x ↦ y (distinct integer variables) to
`(forall ((y Int)) (> y x))` yields `(forall ((y@ Int)) (> y@ y))` — the
bound `y` is renamed to the fresh `y@` and the substituted `x` becomes a
free occurrence of `y`; and the colliding bindings `x`, `x@`, `x@@` under
the same substitution are renamed apart to `x@`, `x@@`, `x@@@` by
repeatedly appending the marker character. -/
theorem c3_capture_avoiding_rename :
    Substitution.new [(xInt, yInt)] = .ok subXtoY ∧
    (Substitution.apply 20 subXtoY c3Input1).map Prod.fst = some c3Expected1 ∧
    (Substitution.apply 20 subXtoY c3Input2).map Prod.fst = some c3Expected2 := by
  refine ⟨by decide, by decide, by decide⟩

theorem tmFuel_pos (t : Tm) : 1 ≤ tmFuel t := by
  cases t <;> simp [tmFuel] <;> omega

theorem tmListFuel_pos (l : TmList) : 1 ≤ tmListFuel l := by
  cases l <;> simp [tmListFuel] <;> omega

theorem bFuel_pos (b : BList) : 1 ≤ bFuel b := by
  cases b <;> simp [bFuel] <;> omega

theorem idlike_empty : IdLike Substitution.empty :=
  ⟨by intro p hp; simp [Substitution.empty] at hp, rfl,
   by intro p hp; simp [Substitution.empty] at hp⟩

theorem idlike_main : ∀ fuel : Nat,
    (∀ s t, IdLike s → tmFuel t ≤ fuel →
      ∃ s1, Substitution.apply fuel s t = some (t, s1) ∧ MapFrame s s1 ∧ IdLike s1) ∧
    (∀ s l, IdLike s → tmListFuel l ≤ fuel →
      ∃ s1, Substitution.applyList fuel s l = some (l, s1) ∧ MapFrame s s1 ∧ IdLike s1) ∧
    (∀ s b inner iv, IdLike s → bFuel b + tmFuel inner ≤ fuel →
      ∃ s1, Substitution.applyToBinder fuel s b inner iv = some (b, inner, s1) ∧
        MapFrame s s1 ∧ IdLike s1) ∧
    (∀ s b iv ns nv, IdLike s → nv = [] → IdLike ns → ns.map = [] → bFuel b ≤ fuel →
      ∃ ns1, Substitution.renameBindingList fuel s b iv ns nv = some (b, ns1) ∧
        ns1.map = [] ∧ IdLike ns1) := by
  intro fuel
  induction fuel with
  | zero =>
      refine ⟨?_, ?_, ?_, ?_⟩
      · intro s t _ hF; have := tmFuel_pos t; omega
      · intro s l _ hF; have := tmListFuel_pos l; omega
      · intro s b inner iv _ hF; have := bFuel_pos b; have := tmFuel_pos inner; omega
      · intro s b iv ns nv _ hnv hns hnsm hF
        cases b with
        | nil => exact ⟨ns, rfl, hnsm, hns⟩
        | cons n v rest =>
            have := bFuel_pos rest; have := tmFuel_pos v
            simp [bFuel] at hF
  | succ fuel ih =>
      obtain ⟨ihP, ihQ, ihR, ihS⟩ := ih
      have hApply : ∀ s t, IdLike s → tmFuel t ≤ fuel + 1 →
          ∃ s1, Substitution.apply (fuel + 1) s t = some (t, s1) ∧ MapFrame s s1 ∧ IdLike s1 := by
        intro s t hId hF
        obtain ⟨hMap, hSnr, hCache⟩ := hId
        cases hcache : alookup s.cache t with
        | some r =>
            have hr : r = t := alookup_refl hCache hcache
            subst hr
            exact ⟨s, by simp only [Substitution.apply, hcache], ⟨rfl, rfl⟩, ⟨hMap, hSnr, hCache⟩⟩
        | none =>
            cases hmap : alookup s.map t with
            | some r =>
                have hr : r = t := alookup_refl hMap hmap
                subst hr
                exact ⟨s, by simp only [Substitution.apply, hcache, hmap], ⟨rfl, rfl⟩,
                  ⟨hMap, hSnr, hCache⟩⟩
            | none =>
                cases t with
                | var n srt =>
                    refine ⟨⟨s.map, s.should_be_renamed, (Tm.var n srt, Tm.var n srt) :: s.cache⟩,
                      ?_, ⟨rfl, rfl⟩, hMap, hSnr, ?_⟩
                    · simp [Substitution.apply, hcache, hmap]
                    · intro p hp
                      rcases List.mem_cons.mp hp with h | h
                      · simp [h]
                      · exact hCache p h
                | intLit n =>
                    refine ⟨⟨s.map, s.should_be_renamed, (Tm.intLit n, Tm.intLit n) :: s.cache⟩,
                      ?_, ⟨rfl, rfl⟩, hMap, hSnr, ?_⟩
                    · simp [Substitution.apply, hcache, hmap]
                    · intro p hp
                      rcases List.mem_cons.mp hp with h | h
                      · simp [h]
                      · exact hCache p h
                | sortTm k =>
                    refine ⟨⟨s.map, s.should_be_renamed, (Tm.sortTm k, Tm.sortTm k) :: s.cache⟩,
                      ?_, ⟨rfl, rfl⟩, hMap, hSnr, ?_⟩
                    · simp [Substitution.apply, hcache, hmap]
                    · intro p hp
                      rcases List.mem_cons.mp hp with h | h
                      · simp [h]
                      · exact hCache p h
                | app f args =>
                    have hFf : tmFuel f ≤ fuel := by
                      have := tmListFuel_pos args; simp [tmFuel] at hF; omega
                    have hFa : tmListFuel args ≤ fuel := by
                      have := tmFuel_pos f; simp [tmFuel] at hF; omega
                    obtain ⟨s1, hL, hLf, hLi⟩ := ihQ s args ⟨hMap, hSnr, hCache⟩ hFa
                    obtain ⟨s2, hA, hAf, hAi⟩ := ihP s1 f hLi hFf
                    refine ⟨⟨s2.map, s2.should_be_renamed,
                      (Tm.app f args, Tm.app f args) :: s2.cache⟩, ?_, ?_, ?_, ?_, ?_⟩
                    · simp [Substitution.apply, hcache, hmap, hL, hA]
                    · exact ⟨by rw [hAf.1, hLf.1], by rw [hAf.2, hLf.2]⟩
                    · intro p hp; rw [hAf.1, hLf.1] at hp; exact hMap p hp
                    · rw [hAf.2, hLf.2]; exact hSnr
                    · intro p hp
                      rcases List.mem_cons.mp hp with h | h
                      · simp [h]
                      · exact hAi.2.2 p h
                | op o args =>
                    have hFa : tmListFuel args ≤ fuel := by simp [tmFuel] at hF; omega
                    obtain ⟨s1, hL, hLf, hLi⟩ := ihQ s args ⟨hMap, hSnr, hCache⟩ hFa
                    refine ⟨⟨s1.map, s1.should_be_renamed,
                      (Tm.op o args, Tm.op o args) :: s1.cache⟩, ?_, ?_, ?_, ?_, ?_⟩
                    · simp [Substitution.apply, hcache, hmap, hL]
                    · exact ⟨by rw [hLf.1], by rw [hLf.2]⟩
                    · intro p hp; rw [hLf.1] at hp; exact hMap p hp
                    · rw [hLf.2]; exact hSnr
                    · intro p hp
                      rcases List.mem_cons.mp hp with h | h
                      · simp [h]
                      · exact hLi.2.2 p h
                | quant q b body =>
                    have hFb : bFuel b + tmFuel body ≤ fuel := by simp [tmFuel] at hF; omega
                    obtain ⟨s1, hB, hBf, hBi⟩ := ihR s b body false ⟨hMap, hSnr, hCache⟩ hFb
                    refine ⟨⟨s1.map, s1.should_be_renamed,
                      (Tm.quant q b body, Tm.quant q b body) :: s1.cache⟩, ?_, ?_, ?_, ?_, ?_⟩
                    · simp [Substitution.apply, hcache, hmap, hB]
                    · exact ⟨by rw [hBf.1], by rw [hBf.2]⟩
                    · intro p hp; rw [hBf.1] at hp; exact hMap p hp
                    · rw [hBf.2]; exact hSnr
                    · intro p hp
                      rcases List.mem_cons.mp hp with h | h
                      · simp [h]
                      · exact hBi.2.2 p h
                | choice n v body =>
                    have hFb : bFuel (BList.cons n v .nil) + tmFuel body ≤ fuel := by
                      simp [tmFuel, bFuel] at hF ⊢; omega
                    obtain ⟨s1, hB, hBf, hBi⟩ :=
                      ihR s (BList.cons n v .nil) body false ⟨hMap, hSnr, hCache⟩ hFb
                    refine ⟨⟨s1.map, s1.should_be_renamed,
                      (Tm.choice n v body, Tm.choice n v body) :: s1.cache⟩, ?_, ?_, ?_, ?_, ?_⟩
                    · simp [Substitution.apply, hcache, hmap, hB]
                    · exact ⟨by rw [hBf.1], by rw [hBf.2]⟩
                    · intro p hp; rw [hBf.1] at hp; exact hMap p hp
                    · rw [hBf.2]; exact hSnr
                    · intro p hp
                      rcases List.mem_cons.mp hp with h | h
                      · simp [h]
                      · exact hBi.2.2 p h
                | lett b body =>
                    have hFb : bFuel b + tmFuel body ≤ fuel := by simp [tmFuel] at hF; omega
                    obtain ⟨s1, hB, hBf, hBi⟩ := ihR s b body true ⟨hMap, hSnr, hCache⟩ hFb
                    refine ⟨⟨s1.map, s1.should_be_renamed,
                      (Tm.lett b body, Tm.lett b body) :: s1.cache⟩, ?_, ?_, ?_, ?_, ?_⟩
                    · simp [Substitution.apply, hcache, hmap, hB]
                    · exact ⟨by rw [hBf.1], by rw [hBf.2]⟩
                    · intro p hp; rw [hBf.1] at hp; exact hMap p hp
                    · rw [hBf.2]; exact hSnr
                    · intro p hp
                      rcases List.mem_cons.mp hp with h | h
                      · simp [h]
                      · exact hBi.2.2 p h
                | lam b body =>
                    have hFb : bFuel b + tmFuel body ≤ fuel := by simp [tmFuel] at hF; omega
                    obtain ⟨s1, hB, hBf, hBi⟩ := ihR s b body true ⟨hMap, hSnr, hCache⟩ hFb
                    refine ⟨⟨s1.map, s1.should_be_renamed,
                      (Tm.lam b body, Tm.lam b body) :: s1.cache⟩, ?_, ?_, ?_, ?_, ?_⟩
                    · simp [Substitution.apply, hcache, hmap, hB]
                    · exact ⟨by rw [hBf.1], by rw [hBf.2]⟩
                    · intro p hp; rw [hBf.1] at hp; exact hMap p hp
                    · rw [hBf.2]; exact hSnr
                    · intro p hp
                      rcases List.mem_cons.mp hp with h | h
                      · simp [h]
                      · exact hBi.2.2 p h
      have hList : ∀ s l, IdLike s → tmListFuel l ≤ fuel + 1 →
          ∃ s1, Substitution.applyList (fuel + 1) s l = some (l, s1) ∧
            MapFrame s s1 ∧ IdLike s1 := by
        intro s l hId hF
        cases l with
        | nil => exact ⟨s, rfl, ⟨rfl, rfl⟩, hId⟩
        | cons a rest =>
            have hFa : tmFuel a ≤ fuel := by
              have := tmListFuel_pos rest; simp [tmListFuel] at hF; omega
            have hFr : tmListFuel rest ≤ fuel := by
              have := tmFuel_pos a; simp [tmListFuel] at hF; omega
            obtain ⟨s1, hA, hAf, hAi⟩ := ihP s a hId hFa
            obtain ⟨s2, hR, hRf, hRi⟩ := ihQ s1 rest hAi hFr
            refine ⟨s2, ?_, ⟨by rw [hRf.1, hAf.1], by rw [hRf.2, hAf.2]⟩, hRi⟩
            simp [Substitution.applyList, hA, hR]
      have hRename : ∀ s b iv ns nv, IdLike s → nv = [] → IdLike ns → ns.map = [] →
          bFuel b ≤ fuel + 1 →
          ∃ ns1, Substitution.renameBindingList (fuel + 1) s b iv ns nv = some (b, ns1) ∧
            ns1.map = [] ∧ IdLike ns1 := by
        intro s b iv ns nv hId hnv hnsI hnsm hF
        subst hnv
        cases b with
        | nil => exact ⟨ns, rfl, hnsm, hnsI⟩
        | cons v val rest =>
            have hsnr : s.should_be_renamed = [] := hId.2.1
            have hFv : tmFuel val ≤ fuel := by
              have := bFuel_pos rest; simp [bFuel] at hF; omega
            have hFr : bFuel rest ≤ fuel := by
              have := tmFuel_pos val; simp [bFuel] at hF; omega
            cases iv with
            | false =>
                obtain ⟨ns3, hRec, hRecm, hReci⟩ := ihS s rest false ns [] hId rfl hnsI hnsm hFr
                refine ⟨ns3, ?_, hRecm, hReci⟩
                simp [Substitution.renameBindingList, hsnr, addMarkers, hRec]
            | true =>
                obtain ⟨ns2, hA, hAf, hAi⟩ := ihP ns val hnsI hFv
                have hns2m : ns2.map = [] := by rw [hAf.1]; exact hnsm
                obtain ⟨ns3, hRec, hRecm, hReci⟩ := ihS s rest true ns2 [] hId rfl hAi hns2m hFr
                refine ⟨ns3, ?_, hRecm, hReci⟩
                simp [Substitution.renameBindingList, hsnr, addMarkers, hA, hRec]
      have hBinder : ∀ s b inner iv, IdLike s → bFuel b + tmFuel inner ≤ fuel + 1 →
          ∃ s1, Substitution.applyToBinder (fuel + 1) s b inner iv = some (b, inner, s1) ∧
            MapFrame s s1 ∧ IdLike s1 := by
        intro s b inner iv hId hF
        have hFb : bFuel b ≤ fuel := by have := tmFuel_pos inner; omega
        have hFi : tmFuel inner ≤ fuel := by have := bFuel_pos b; omega
        obtain ⟨ns1, hRn, hRnm, _⟩ := ihS s b iv Substitution.empty [] hId rfl idlike_empty rfl hFb
        obtain ⟨s1, hA, hAf, hAi⟩ := ihP s inner hId hFi
        refine ⟨s1, ?_, hAf, hAi⟩
        simp [Substitution.applyToBinder, hRn, hRnm, hA]
      exact ⟨hApply, hList, hBinder, hRename⟩

/-- C8: applying the empty substitution to any term, of any variant
including binders, returns the term itself (hence a structurally equal
term). -/
theorem c8_empty_apply_identity (t : Tm) (fuel : Nat) (h : tmFuel t ≤ fuel) :
    ∃ s1, Substitution.apply fuel Substitution.empty t = some (t, s1) := by
  obtain ⟨s1, hA, _, _⟩ := (idlike_main fuel).1 Substitution.empty t idlike_empty h
  exact ⟨s1, hA⟩

/-- Witness for C8 at a concrete binder-heavy term. -/
theorem c8_empty_apply_identity_witness :
    ∃ s1, Substitution.apply 40 Substitution.empty letTerm = some (letTerm, s1) :=
  c8_empty_apply_identity letTerm 40 (by decide)

/-- C7: a substitution consisting only of the reflexive mapping x ↦ x has
an empty `should_be_renamed` set (reflexive pairs contribute nothing),
and applying it to any term returns the very same term — no bound
occurrence of x (or of anything else) is renamed. -/
theorem c7_reflexive_no_rename (n : String) (srt : Tm) (t : Tm) (fuel : Nat)
    (s0 : Substitution)
    (h : Substitution.single (Tm.var n srt) (Tm.var n srt) = .ok s0)
    (hf : tmFuel t ≤ fuel) :
    s0.should_be_renamed = [] ∧ ∃ s1, Substitution.apply fuel s0 t = some (t, s1) := by
  have hs0 : s0 = ⟨[(Tm.var n srt, Tm.var n srt)], [], []⟩ := by
    simp [Substitution.single, Substitution.insert, Substitution.empty] at h
    exact h.symm
  have hId : IdLike s0 := by
    rw [hs0]
    refine ⟨?_, rfl, ?_⟩
    · intro p hp; simp at hp; simp [hp]
    · intro p hp; simp at hp
  obtain ⟨s1, hA, _, _⟩ := (idlike_main fuel).1 s0 t hId hf
  exact ⟨hId.2.1, s1, hA⟩

/-- Witness for C7: the reflexive substitution x ↦ x leaves a term whose
binders mention x-like names untouched. -/
theorem c7_reflexive_no_rename_witness :
    (⟨[(xInt, xInt)], [], []⟩ : Substitution).should_be_renamed = [] ∧
    ∃ s1, Substitution.apply 40 (⟨[(xInt, xInt)], [], []⟩ : Substitution) letTerm =
      some (letTerm, s1) :=
  c7_reflexive_no_rename "x" intSort letTerm 40 ⟨[(xInt, xInt)], [], []⟩ (by decide) (by decide)

theorem selectPivot_none_of_all_false :
    ∀ l : List ((Int × Tm) × Bool), (∀ e ∈ l, e.2 = false) → selectPivot l = none := by
  intro l
  induction l with
  | nil => intro _; rfl
  | cons e rest ih =>
      intro h
      obtain ⟨k, b⟩ := e
      have hb : b = false := h (k, b) (by simp)
      subst hb
      simpa [selectPivot] using ih (fun e he => h e (List.mem_cons_of_mem _ he))

theorem selectPivot_marked :
    ∀ (l : List ((Int × Tm) × Bool)) (e : (Int × Tm) × Bool), e ∈ l → e.2 = true →
      ∃ k, selectPivot l = some k ∧ (k, true) ∈ l := by
  intro l
  induction l with
  | nil => intro e he; simp at he
  | cons q rest ih =>
      intro e he het
      obtain ⟨k, b⟩ := q
      cases b with
      | true => exact ⟨k, rfl, by simp⟩
      | false =>
          have hrest : e ∈ rest := by
            rcases List.mem_cons.mp he with h | h
            · exfalso; rw [h] at het; simp at het
            · exact h
          obtain ⟨k1, hk1, hk1m⟩ := ih e hrest het
          exact ⟨k1, by simpa [selectPivot] using hk1, List.mem_cons_of_mem _ hk1m⟩

theorem selectPivot_unique :
    ∀ (l : List ((Int × Tm) × Bool)) (k : Int × Tm), (k, true) ∈ l →
      (∀ e ∈ l, e.2 = true → e.1 = k) → selectPivot l = some k := by
  intro l
  induction l with
  | nil => intro k hk; simp at hk
  | cons q rest ih =>
      intro k hk huniq
      obtain ⟨k1, b⟩ := q
      cases b with
      | true =>
          have : k1 = k := huniq (k1, true) (by simp) rfl
          simp [selectPivot, this]
      | false =>
          have hrest : (k, true) ∈ rest := by
            rcases List.mem_cons.mp hk with h | h
            · exfalso; exact absurd (congrArg Prod.snd h) (by simp)
            · exact h
          simpa [selectPivot] using
            ih k hrest (fun e he => huniq e (List.mem_cons_of_mem _ he))

/-- C2 (amended): when no candidate is marked eliminated-in-both-premises
`get_pivots` aborts fatally (the panic, modelled as `none`); when some
candidate is marked (and the `¬true` early abort does not fire) it does
NOT abort — it returns a marked candidate; and when exactly one candidate
is marked it returns exactly that one. -/
theorem c2_pivot_selection :
    (∀ (conclusion : List Tm) (premises : List (List Tm)),
        (∀ e ∈ buildPivots conclusion premises, e.2 = false) →
        get_pivots conclusion premises = none) ∧
    (∀ (conclusion : List Tm) (premises : List (List Tm)) (e : (Int × Tm) × Bool),
        earlyNotTruePanic conclusion premises = false →
        e ∈ buildPivots conclusion premises → e.2 = true →
        ∃ k, selectPivot (buildPivots conclusion premises) = some k ∧
          (k, true) ∈ buildPivots conclusion premises ∧
          get_pivots conclusion premises = some (k.1.toNat, k.2)) ∧
    (∀ (conclusion : List Tm) (premises : List (List Tm)) (k : Int × Tm),
        earlyNotTruePanic conclusion premises = false →
        (k, true) ∈ buildPivots conclusion premises →
        (∀ e ∈ buildPivots conclusion premises, e.2 = true → e.1 = k) →
        get_pivots conclusion premises = some (k.1.toNat, k.2)) := by
  refine ⟨?_, ?_, ?_⟩
  · intro conclusion premises h
    cases hearly : earlyNotTruePanic conclusion premises with
    | true => simp [get_pivots, hearly]
    | false => simp [get_pivots, hearly, selectPivot_none_of_all_false _ h]
  · intro conclusion premises e hearly he het
    obtain ⟨k, hk, hkm⟩ := selectPivot_marked _ e he het
    exact ⟨k, hk, hkm, by simp [get_pivots, hearly, hk]⟩
  · intro conclusion premises k hearly hk huniq
    simp [get_pivots, hearly, selectPivot_unique _ k hk huniq]

/-- Witness for the amended C2: a well-formed binary resolution instance
(premises `[p, q]` and `[¬p]`, conclusion `[q]`) has exactly one marked
candidate and `get_pivots` returns exactly that pivot, `p`. -/
theorem c2_pivot_selection_witness :
    get_pivots [qB] [[pB, qB], [notTm pB]] = some ((0 : Int).toNat, pB) :=
  c2_pivot_selection.2.2 [qB] [[pB, qB], [notTm pB]] (0, pB)
    (by decide) (by decide) (by decide)

/-- C2 counterexample: two independent complementary pairs `(p, ¬p)` and
`(q, ¬q)` across the two premises, both absent from the (empty)
conclusion — the claim predicts a fatal abort, but `get_pivots` returns a
pivot, and which pair it returns depends on the literal order of the
second premise. -/
theorem c2_two_pivots_not_fatal :
    get_pivots [] [[pB, qB], [notTm pB, notTm qB]] = some (0, pB) ∧
    get_pivots [] [[pB, qB], [notTm qB, notTm pB]] = some (0, qB) := by
  refine ⟨by decide, by decide⟩

theorem get?_set_same (l : List Nat) (i v : Nat) (h : i < l.length) :
    (l.set i v).get? i = some v := by
  simp [List.get?_set_eq, h]

theorem get?_set_other (l : List Nat) (i j v : Nat) (h : i ≠ j) :
    (l.set i v).get? j = l.get? j := by
  rw [List.get?_set_ne _ _ h]

/-- Path compression correctness for `find` on a descending array: the
returned representative is a root, no larger than the query, the query's
slot now points at it, and the array stays descending with unchanged
length. -/
theorem find_spec :
    ∀ (fuel i : Nat) (a : List Nat) (r : Nat) (a1 : List Nat),
      Desc a → find fuel i a = some (r, a1) →
      a1.length = a.length ∧ r ≤ i ∧ a1.get? r = some r ∧ a1.get? i = some r ∧ Desc a1 := by
  intro fuel
  induction fuel with
  | zero => intro i a r a1 _ h; simp [find] at h
  | succ fuel ih =>
      intro i a r a1 hd h
      cases hai : a[i]? with
      | none => simp [find, hai] at h
      | some ai =>
          have hai' : a.get? i = some ai := by simpa [List.get?_eq_getElem?] using hai
          simp only [find, hai'] at h
          by_cases hii : ai = i
          · rw [if_pos hii] at h
            have h2 := Option.some.inj h
            cases h2
            subst hii
            exact ⟨rfl, le_refl _, hai', hai', hd⟩
          · rw [if_neg hii] at h
            cases hrec : find fuel ai a with
            | none => rw [hrec] at h; simp at h
            | some p0 =>
                obtain ⟨r0, a0⟩ := p0
                rw [hrec] at h
                simp only at h
                have h2 := Option.some.inj h
                cases h2
                obtain ⟨hlen, hle, hroot, hpt, hdesc⟩ := ih ai a r a0 hd hrec
                have hiai : ai ≤ i := hd i ai hai'
                have hailt : ai < i := lt_of_le_of_ne hiai hii
                have hri : r < i := lt_of_le_of_lt hle hailt
                have hilen : i < a.length := List.get?_eq_some.mp hai' |>.1
                have hilen0 : i < a0.length := by rw [hlen]; exact hilen
                have hrni : r ≠ i := Nat.ne_of_lt hri
                refine ⟨?_, ?_, ?_, ?_, ?_⟩
                · rw [List.length_set, hlen]
                · exact le_trans hle hiai
                · rw [get?_set_other _ _ _ _ (Ne.symm hrni), hroot]
                · rw [get?_set_same _ _ _ hilen0]
                · intro j v hj
                  by_cases hji : j = i
                  · subst hji
                    rw [get?_set_same _ _ _ hilen0] at hj
                    have hv : v = r := by simpa using hj.symm
                    subst hv
                    exact le_of_lt hri
                  · rw [get?_set_other _ _ _ _ (fun hh => hji hh.symm)] at hj
                    exact hdesc j v hj

/-- The redirection loop leaves the array untouched when every premise is
dnm, and otherwise points the slot of `curr` at the representative of the
LAST non-dnm premise: the slot holds a root `r` that is also where that
premise points. -/
theorem redirectLoop_last :
    ∀ (premises : List (Nat × Nat)) (fuel curr : Nat) (dnm : List Bool)
      (actual a1 : List Nat),
      Desc actual → curr < actual.length → (∀ q ∈ premises, q.2 < curr) →
      redirectLoop fuel curr premises dnm actual = some a1 →
      (lastNonDnm premises dnm = none → a1 = actual) ∧
      (∀ p, lastNonDnm premises dnm = some p →
        ∃ r, r ≤ p ∧ a1.get? curr = some r ∧ a1.get? p = some r ∧ a1.get? r = some r) := by
  intro premises
  induction premises with
  | nil =>
      intro fuel curr dnm actual a1 _ _ _ h
      refine ⟨?_, ?_⟩
      · intro _
        simp [redirectLoop] at h
        exact h.symm
      · intro p hp; simp [lastNonDnm] at hp
  | cons q rest ih =>
      intro fuel curr dnm actual a1 hd hc hpl h
      obtain ⟨d, pr⟩ := q
      have hprc : pr < curr := hpl (d, pr) (by simp)
      have hrestpl : ∀ x ∈ rest, x.2 < curr := fun x hx => hpl x (List.mem_cons_of_mem _ hx)
      cases hdn : dnm[pr]? with
      | none => simp [redirectLoop, hdn] at h
      | some b =>
          have hdn' : dnm.get? pr = some b := by simpa [List.get?_eq_getElem?] using hdn
          cases b with
          | true =>
              have h' : redirectLoop fuel curr rest dnm actual = some a1 := by
                simpa [redirectLoop, hdn] using h
              have ihh := ih fuel curr dnm actual a1 hd hc hrestpl h'
              have hlast : lastNonDnm ((d, pr) :: rest) dnm = lastNonDnm rest dnm := by
                cases hl : lastNonDnm rest dnm <;> simp [lastNonDnm, hl, hdn', hdn]
              rw [hlast]
              exact ihh
          | false =>
              cases hfind : find fuel pr actual with
              | none => simp [redirectLoop, hdn, hfind] at h
              | some p0 =>
                  obtain ⟨r0, a0⟩ := p0
                  have h' : redirectLoop fuel curr rest dnm (a0.set curr r0) = some a1 := by
                    simpa [redirectLoop, hdn, hfind] using h
                  obtain ⟨hlen, hle, hroot, hpt, hdesc0⟩ :=
                    find_spec fuel pr actual r0 a0 hd hfind
                  have hr0c : r0 < curr := lt_of_le_of_lt hle hprc
                  have hclen0 : curr < a0.length := by rw [hlen]; exact hc
                  have hd2 : Desc (a0.set curr r0) := by
                    intro j v hj
                    by_cases hjc : j = curr
                    · subst hjc
                      rw [get?_set_same _ _ _ hclen0] at hj
                      have hv : v = r0 := by simpa using hj.symm
                      subst hv; exact le_of_lt hr0c
                    · rw [get?_set_other _ _ _ _ (fun hh => hjc hh.symm)] at hj
                      exact hdesc0 j v hj
                  have hc2 : curr < (a0.set curr r0).length := by
                    rw [List.length_set]; exact hclen0
                  have ihh := ih fuel curr dnm (a0.set curr r0) a1 hd2 hc2 hrestpl h'
                  constructor
                  · intro hnone
                    exfalso
                    cases hl : lastNonDnm rest dnm <;> simp [lastNonDnm, hl, hdn', hdn] at hnone
                  · intro p hp
                    cases hl : lastNonDnm rest dnm with
                    | some p1 =>
                        have hpp : p1 = p := by simp [lastNonDnm, hl, hdn', hdn] at hp; exact hp
                        subst hpp
                        exact ihh.2 p1 hl
                    | none =>
                        have hpp : pr = p := by simp [lastNonDnm, hl, hdn', hdn] at hp; exact hp
                        subst hpp
                        have ha1 : a1 = a0.set curr r0 := ihh.1 hl
                        subst ha1
                        have hprcurr : pr ≠ curr := Nat.ne_of_lt hprc
                        have hr0curr : r0 ≠ curr := Nat.ne_of_lt hr0c
                        refine ⟨r0, hle, ?_, ?_, ?_⟩
                        · rw [get?_set_same _ _ _ hclen0]
                        · rw [get?_set_other _ _ _ _ (Ne.symm hprcurr), hpt]
                        · rw [get?_set_other _ _ _ _ (Ne.symm hr0curr), hroot]

/-- The identity array `compress_proof` starts from is descending. -/
theorem desc_range (n : Nat) : Desc (List.range n) := by
  intro i v h
  have hlt : i < n := by
    by_contra hge
    have hnone : (List.range n).get? i = none := by
      rw [List.get?_eq_none]
      simpa [List.length_range] using Nat.le_of_not_lt hge
    rw [hnone] at h
    cases h
  rw [List.get?_range hlt] at h
  have : i = v := by simpa using h
  omega

/-- C4 (amended): when `fix_proof` redirects a non-dnm step that has at
least one dnm direct premise (the loop over its premises), the node's
slot in the redirection array ends at the path-compressed representative
of the LAST non-dnm direct premise in the step's premise order — the slot
holds a root `r` which is also where that premise now points. -/
theorem c4_redirect_last_non_dnm (premises : List (Nat × Nat)) (fuel curr : Nat)
    (dnm : List Bool) (actual a1 : List Nat) (p : Nat)
    (hd : Desc actual) (hc : curr < actual.length) (hpl : ∀ q ∈ premises, q.2 < curr)
    (h : redirectLoop fuel curr premises dnm actual = some a1)
    (hp : lastNonDnm premises dnm = some p) :
    ∃ r, r ≤ p ∧ a1.get? curr = some r ∧ a1.get? p = some r ∧ a1.get? r = some r :=
  (redirectLoop_last premises fuel curr dnm actual a1 hd hc hpl h).2 p hp

/-- Witness for the amended C4 on the concrete redirection of node 3 of
`exProofC4`: the slot ends at 2, the representative of the last non-dnm
premise. -/
theorem c4_redirect_last_non_dnm_witness :
    ∃ r, r ≤ 2 ∧ ([0, 1, 2, 2] : List Nat).get? 3 = some r ∧
      ([0, 1, 2, 2] : List Nat).get? 2 = some r ∧
      ([0, 1, 2, 2] : List Nat).get? r = some r :=
  c4_redirect_last_non_dnm [(0, 1), (0, 0), (0, 2)] 50 3 dnmC4 (List.range 4)
    [0, 1, 2, 2] 2 (desc_range 4) (by decide) (by decide) (by decide) (by decide)

/-- C4 counterexample: running `fix_proof` on `exProofC4` (root premises
`[1, 0, 2]`, premise 0 dnm), the slot of node 3 ends at 2 — the last
non-dnm premise's representative — while the FIRST non-dnm premise is 1,
its own representative; so the slot is NOT the first premise's
representative as the claim states. -/
theorem c4_first_non_dnm_refuted :
    fix_proof 50 3 exProofC4 dnmC4 (List.range 4) = some [0, 1, 2, 2] ∧
    firstNonDnm [(0, 1), (0, 0), (0, 2)] dnmC4 = some 1 ∧
    ([0, 1, 2, 2] : List Nat).get? 1 = some 1 ∧
    ([0, 1, 2, 2] : List Nat).get? 3 = some 2 ∧ (2 : Nat) ≠ 1 := by
  refine ⟨by decide, by decide, by decide, by decide, by decide⟩

/-- The ghost-traced traversal projects to the traversal of the source:
the trace component is pure instrumentation. -/
theorem collectUnitsLoop_eq_traced (cmds : List ProofCommand) :
    ∀ (fuel : Nat) (queue : List Nat) (visited : List (Nat × Nat)) (units trace : List Nat),
      collectUnitsLoop cmds queue visited units fuel =
        (collectUnitsLoopTraced cmds queue visited units trace fuel).map Prod.fst := by
  intro fuel
  induction fuel with
  | zero => intro queue visited units trace; simp [collectUnitsLoop, collectUnitsLoopTraced]
  | succ fuel ih =>
      intro queue visited units trace
      cases queue with
      | nil => simp [collectUnitsLoop, collectUnitsLoopTraced]
      | cons curr rest =>
          cases hget : cmds.get? curr with
          | none => simp only [collectUnitsLoop, collectUnitsLoopTraced, hget]; rfl
          | some cmd =>
              simp only [collectUnitsLoop, collectUnitsLoopTraced, hget]
              exact ih _ _ _ _

/-- One iteration of the `collect_units` loop preserves the invariant:
processing the popped node extends the trace, and `visit` keeps the
visited marks and the unit list in step with the trace multiplicities. -/
theorem cuInv_step (cmds : List ProofCommand) (visited : List (Nat × Nat))
    (units trace : List Nat) (curr : Nat) (cmd : ProofCommand)
    (hget : cmds.get? curr = some cmd) (hInv : CUInv cmds visited units trace) :
    CUInv cmds
      (if unitShaped cmd then visit curr visited units else (visited, units)).1
      (if unitShaped cmd then visit curr visited units else (visited, units)).2
      (curr :: trace) := by
  obtain ⟨hnd, htri, hnonunit, hiff⟩ := hInv
  by_cases hu : unitShaped cmd
  case neg =>
    rw [if_neg hu]
    have hcurrNot : ¬ unitShapedAt cmds curr := by
      rintro ⟨cmd1, hg1, hu1⟩
      rw [hget] at hg1
      cases hg1
      exact hu hu1
    refine ⟨hnd, ?_, ?_, ?_⟩
    · intro n hn
      have hne : n ≠ curr := fun he => hcurrNot (he ▸ hn)
      have hcount : (curr :: trace).count n = trace.count n := by
        simp [List.count_cons, hne]
      rw [hcount]
      exact htri n hn
    · exact hnonunit
    · intro n
      by_cases hne : n = curr
      · subst hne
        constructor
        · intro hmem; exact absurd ((hiff n).mp hmem).1 hcurrNot
        · rintro ⟨hun, _⟩; exact absurd hun hcurrNot
      · have hcount : (curr :: trace).count n = trace.count n := by
          simp [List.count_cons, hne]
        rw [hcount]; exact hiff n
  case pos =>
    rw [if_pos hu]
    have hcurrUnit : unitShapedAt cmds curr := ⟨cmd, hget, hu⟩
    cases hlook : alookup visited curr with
    | none =>
        have hcnt0 : trace.count curr = 0 := by
          rcases htri curr hcurrUnit with ⟨_, h2⟩ | ⟨h1, _⟩ | ⟨h1, _⟩
          · exact h2
          · rw [hlook] at h1; cases h1
          · rw [hlook] at h1; cases h1
        simp only [visit, hlook]
        refine ⟨hnd, ?_, ?_, ?_⟩
        · intro n hn
          by_cases hne : n = curr
          · subst hne
            refine Or.inr (Or.inl ⟨?_, ?_⟩)
            · simp [alookup]
            · simp [List.count_cons, hcnt0]
          · have hcount : (curr :: trace).count n = trace.count n := by
              simp [List.count_cons, hne]
            have hlook2 : alookup ((curr, 0) :: visited) n = alookup visited n := by
              simp [alookup, Ne.symm hne]
            rw [hcount, hlook2]
            exact htri n hn
        · intro n hn
          have hne : n ≠ curr := fun he => hn (he ▸ hcurrUnit)
          have hlook2 : alookup ((curr, 0) :: visited) n = alookup visited n := by
            simp [alookup, Ne.symm hne]
          rw [hlook2]; exact hnonunit n hn
        · intro n
          by_cases hne : n = curr
          · subst hne
            constructor
            · intro hmem
              have h2 := ((hiff n).mp hmem).2
              rw [hcnt0] at h2; omega
            · rintro ⟨_, hcount⟩
              rw [List.count_cons_self, hcnt0] at hcount; omega
          · have hcount : (curr :: trace).count n = trace.count n := by
              simp [List.count_cons, hne]
            rw [hcount]; exact hiff n
    | some v =>
        cases v with
        | zero =>
            have hcnt1 : trace.count curr = 1 := by
              rcases htri curr hcurrUnit with ⟨h1, _⟩ | ⟨_, h2⟩ | ⟨h1, _⟩
              · rw [hlook] at h1; cases h1
              · exact h2
              · rw [hlook] at h1; cases h1
            have hnotmem : curr ∉ units := by
              intro hmem
              have h2 := ((hiff curr).mp hmem).2
              rw [hcnt1] at h2; omega
            simp only [visit, hlook]
            refine ⟨?_, ?_, ?_, ?_⟩
            · refine List.Nodup.append hnd (List.nodup_singleton _) ?_
              intro a ha hb
              simp at hb
              subst hb
              exact hnotmem ha
            · intro n hn
              by_cases hne : n = curr
              · subst hne
                refine Or.inr (Or.inr ⟨?_, ?_⟩)
                · simp [alookup]
                · rw [List.count_cons_self, hcnt1]
              · have hcount : (curr :: trace).count n = trace.count n := by
                  simp [List.count_cons, hne]
                have hlook2 : alookup ((curr, 1) :: visited) n = alookup visited n := by
                  simp [alookup, Ne.symm hne]
                rw [hcount, hlook2]
                exact htri n hn
            · intro n hn
              have hne : n ≠ curr := fun he => hn (he ▸ hcurrUnit)
              have hlook2 : alookup ((curr, 1) :: visited) n = alookup visited n := by
                simp [alookup, Ne.symm hne]
              rw [hlook2]; exact hnonunit n hn
            · intro n
              by_cases hne : n = curr
              · subst hne
                constructor
                · intro _
                  exact ⟨hcurrUnit, by rw [List.count_cons_self, hcnt1]⟩
                · intro _
                  simp
              · have hcount : (curr :: trace).count n = trace.count n := by
                  simp [List.count_cons, hne]
                rw [hcount]
                constructor
                · intro hmem
                  have hmem2 : n ∈ units := by
                    rcases List.mem_append.mp hmem with h | h
                    · exact h
                    · simp at h; exact absurd h hne
                  exact (hiff n).mp hmem2
                · intro hr
                  exact List.mem_append.mpr (Or.inl ((hiff n).mpr hr))
        | succ k =>
            have hk : (k : Nat) + 1 = 1 ∧ 2 ≤ trace.count curr := by
              rcases htri curr hcurrUnit with ⟨h1, _⟩ | ⟨h1, _⟩ | ⟨h1, h2⟩
              · rw [hlook] at h1; cases h1
              · rw [hlook] at h1
                exact absurd (Option.some.inj h1) (by omega)
              · rw [hlook] at h1
                exact ⟨Option.some.inj h1, h2⟩
            simp only [visit, hlook]
            refine ⟨hnd, ?_, ?_, ?_⟩
            · intro n hn
              by_cases hne : n = curr
              · subst hne
                refine Or.inr (Or.inr ⟨?_, ?_⟩)
                · simpa [hk.1] using hlook
                · rw [List.count_cons_self]
                  have := hk.2
                  omega
              · have hcount : (curr :: trace).count n = trace.count n := by
                  simp [List.count_cons, hne]
                rw [hcount]
                exact htri n hn
            · exact hnonunit
            · intro n
              by_cases hne : n = curr
              · subst hne
                constructor
                · intro _
                  refine ⟨hcurrUnit, ?_⟩
                  rw [List.count_cons_self]
                  have := hk.2
                  omega
                · intro _
                  exact (hiff n).mpr ⟨hcurrUnit, hk.2⟩
              · have hcount : (curr :: trace).count n = trace.count n := by
                  simp [List.count_cons, hne]
                rw [hcount]; exact hiff n

/-- The invariant holds in the initial state of `collect_units`. -/
theorem cuInv_initial (cmds : List ProofCommand) : CUInv cmds [] [] [] := by
  refine ⟨List.nodup_nil, ?_, ?_, ?_⟩
  · intro n _; exact Or.inl ⟨rfl, by simp⟩
  · intro n _; rfl
  · intro n; simp

/-- Any completed run of the traced `collect_units` loop from an
invariant state returns a duplicate-free unit list holding exactly the
unit-shaped nodes processed at least twice. -/
theorem cuLoop_spec (cmds : List ProofCommand) :
    ∀ (fuel : Nat) (queue : List Nat) (visited : List (Nat × Nat)) (units trace : List Nat)
      (result : List Nat × List Nat),
      CUInv cmds visited units trace →
      collectUnitsLoopTraced cmds queue visited units trace fuel = some result →
      result.1.Nodup ∧ ∀ n, n ∈ result.1 ↔ unitShapedAt cmds n ∧ 2 ≤ result.2.count n := by
  intro fuel
  induction fuel with
  | zero =>
      intro queue visited units trace result _ h
      simp [collectUnitsLoopTraced] at h
  | succ fuel ih =>
      intro queue visited units trace result hInv h
      cases queue with
      | nil =>
          simp only [collectUnitsLoopTraced] at h
          cases h
          exact ⟨hInv.1, hInv.2.2.2⟩
      | cons curr rest =>
          cases hget : cmds.get? curr with
          | none =>
              simp only [collectUnitsLoopTraced, hget] at h
              cases h
          | some cmd =>
              simp only [collectUnitsLoopTraced, hget] at h
              exact ih _ _ _ _ result (cuInv_step cmds visited units trace curr cmd hget hInv) h

/-- C5 (amended): `collect_units` traverses the proof backward from the
root over premise edges in depth-first (LIFO) order — it is the units
projection of the traced traversal, which pushes premises onto the front
of the queue — and it appends a node exactly once, precisely when the
node is unit-shaped and is reached for a second time: the returned list
is duplicate-free and holds exactly the unit-shaped nodes processed at
least twice by the traversal, no matter how many further visits occur. -/
theorem c5_units_second_visit :
    (∀ (proof : Proof) (fuel : Nat),
        collect_units proof fuel =
          (collectUnitsLoopTraced proof.commands
            [proof.commands.length - 1] [] [] [] fuel).map Prod.fst) ∧
    (∀ (proof : Proof) (fuel : Nat) (units trace : List Nat),
        collectUnitsLoopTraced proof.commands [proof.commands.length - 1] [] [] [] fuel =
          some (units, trace) →
        units.Nodup ∧
          ∀ n, n ∈ units ↔ unitShapedAt proof.commands n ∧ 2 ≤ trace.count n) := by
  constructor
  · intro proof fuel
    exact collectUnitsLoop_eq_traced proof.commands fuel _ _ _ _
  · intro proof fuel units trace h
    exact cuLoop_spec proof.commands fuel _ _ _ _ (units, trace) (cuInv_initial _) h

/-- Witness for the amended C5: the concrete run on `exProofC5`
(processing trace 4,3,1,0,2,1,0, most recent first) returns exactly the
twice-processed unit nodes 1 and 0, each once. -/
theorem c5_units_second_visit_witness :
    ([1, 0] : List Nat).Nodup ∧
    ∀ n, n ∈ ([1, 0] : List Nat) ↔
      unitShapedAt exProofC5.commands n ∧
        2 ≤ ([0, 1, 2, 0, 1, 3, 4] : List Nat).count n :=
  c5_units_second_visit.2 exProofC5 50 [1, 0] [0, 1, 2, 0, 1, 3, 4] (by decide)

/-- C5 counterexample: `collect_units` explores premises in LIFO order,
returning the shared units of `exProofC5` as [1, 0], while the
breadth-first traversal the claim describes returns [0, 1]; the traversal
is therefore not breadth-first. -/
theorem c5_not_breadth_first :
    collect_units exProofC5 50 = some [1, 0] ∧
    collectUnitsBreadthFirst exProofC5 50 = some [0, 1] ∧
    (some [1, 0] : Option (List Nat)) ≠ some [0, 1] := by
  refine ⟨by decide, by decide, by decide⟩
